import Mathlib

/-!
Verification of the score-da resumable block collectors
(`protocol/Celestia/data/collect.py` and `protocol/Espresso/data/collect.py`)
against their natural-language specification.

The Python collectors are shallowly embedded: every definition below is a
direct translation of a function or code fragment of the source, with the
source location recorded in its doc comment.  Machine integers are modelled
as `Nat`/`Int` (Python integers are unbounded, so no wrap-around modelling
is needed); float sleep durations are modelled as `ℚ` (all values involved
are small dyadic rationals, exactly representable in IEEE doubles);
fallible paths are modelled with `Except`/`Option` or explicit outcome
types.
-/

namespace ScoreDA

/-! ### Block records

`BlockRecord` models one parsed block row.  Both collectors' dedup/sort
logic only inspects the `height` key (Celestia `collect.py` line 378,
Espresso `collect.py` line 405) and the day-partitioned writer only
inspects the timestamp; the remaining per-protocol CSV fields are
abstracted into the single field `rest`, which suffices to distinguish two
fetched records that share a height. -/
structure BlockRecord where
  height : Nat
  timestamp_ms : Nat
  rest : Nat
deriving DecidableEq, Repr

/-- Both collectors restore global order with `.sort(key=lambda b: b["height"])`
(Celestia `collect.py` line 384, Espresso line 409): a stable sort by the
height key, modelled by insertion sort on `≤` of heights. -/
def sortByHeight (l : List BlockRecord) : List BlockRecord :=
  List.insertionSort (fun a b => a.height ≤ b.height) l

instance : IsTotal BlockRecord (fun a b => a.height ≤ b.height) :=
  ⟨fun a b => Nat.le_total a.height b.height⟩

instance : IsTrans BlockRecord (fun a b => a.height ≤ b.height) :=
  ⟨fun _ _ _ h1 h2 => Nat.le_trans h1 h2⟩

/-- First-seen deduplication by height, parameterised by the extra filter on
the height that the Espresso collector applies.

Celestia `collect.py` lines 374-381:
    seen = set(); unique = []
    for b in all_blocks:
        if b["height"] not in seen: seen.add(h); unique.append(b)
(filter `fun _ => true`); Espresso `collect.py` lines 402-408 additionally
requires `fetch_start <= b["height"] <= tip` in the same condition. -/
def dedupByHeight (keep : Nat → Bool) : List BlockRecord → List Nat → List BlockRecord
  | [], _ => []
  | b :: bs, seen =>
    if b.height ∉ seen ∧ keep b.height = true then
      b :: dedupByHeight keep bs (b.height :: seen)
    else
      dedupByHeight keep bs seen

/-- Celestia `collect_blocks` post-processing (`collect.py` lines 374-385):
deduplicate by height keeping the first-seen record, then sort ascending by
height. -/
def celestiaCollectOutput (all_blocks : List BlockRecord) : List BlockRecord :=
  sortByHeight (dedupByHeight (fun _ => true) all_blocks [])

/-- Espresso `main` step 6 (`collect.py` lines 401-409): deduplicate by
height keeping the first-seen record whose height lies in
`[fetch_start, tip]`, then sort ascending by height. -/
def espressoCollectOutput (fetch_start tip : Nat) (all_blocks : List BlockRecord) :
    List BlockRecord :=
  sortByHeight
    (dedupByHeight (fun h => decide (fetch_start ≤ h) && decide (h ≤ tip)) all_blocks [])

/-- The first record of `l` carrying height `h` (the record that first-seen
deduplication keeps for `h`). -/
def firstWithHeight (l : List BlockRecord) (h : Nat) : Option BlockRecord :=
  l.find? (fun b => b.height == h)

/-- A record produced by `dedupByHeight` has an unseen, kept height and is
the first record of the input with that height. -/
theorem mem_dedupByHeight {keep : Nat → Bool} :
    ∀ {l : List BlockRecord} {seen : List Nat} {b : BlockRecord},
      b ∈ dedupByHeight keep l seen →
      b.height ∉ seen ∧ keep b.height = true ∧ firstWithHeight l b.height = some b
  | [], _, _, hmem => by simp [dedupByHeight] at hmem
  | a :: l, seen, b, hmem => by
    simp only [dedupByHeight] at hmem
    split at hmem
    · rename_i hcond
      rcases List.mem_cons.mp hmem with rfl | htail
      · exact ⟨hcond.1, hcond.2, by simp [firstWithHeight, List.find?_cons]⟩
      · obtain ⟨hseen, hkeep, hfind⟩ := mem_dedupByHeight htail
        have hne : a.height ≠ b.height := by
          intro he
          exact hseen (he ▸ List.mem_cons_self _ _)
        refine ⟨fun hc => hseen (List.mem_cons_of_mem _ hc), hkeep, ?_⟩
        simpa [firstWithHeight, List.find?_cons, Nat.beq_eq_true_eq, hne] using hfind
    · rename_i hcond
      obtain ⟨hseen, hkeep, hfind⟩ := mem_dedupByHeight hmem
      have hne : a.height ≠ b.height := by
        intro he
        exact hcond ⟨he ▸ hseen, he ▸ hkeep⟩
      exact ⟨hseen, hkeep, by
        simpa [firstWithHeight, List.find?_cons, Nat.beq_eq_true_eq, hne] using hfind⟩

/-- The heights surviving deduplication are exactly the kept, previously
unseen input heights. -/
theorem mem_map_height_dedupByHeight {keep : Nat → Bool} :
    ∀ {l : List BlockRecord} {seen : List Nat} {h : Nat},
      h ∈ (dedupByHeight keep l seen).map (fun b => b.height) ↔
        h ∈ l.map (fun b => b.height) ∧ h ∉ seen ∧ keep h = true
  | [], seen, h => by simp [dedupByHeight]
  | a :: l, seen, h => by
    simp only [dedupByHeight]
    split
    · rename_i hcond
      simp only [List.map_cons, List.mem_cons]
      constructor
      · rintro (rfl | htail)
        · exact ⟨Or.inl rfl, hcond.1, hcond.2⟩
        · obtain ⟨hm, hs, hk⟩ := mem_map_height_dedupByHeight.mp htail
          exact ⟨Or.inr hm, fun hc => hs (List.mem_cons_of_mem _ hc), hk⟩
      · rintro ⟨rfl | hm, hs, hk⟩
        · exact Or.inl rfl
        · by_cases he : h = a.height
          · exact Or.inl he
          · exact Or.inr (mem_map_height_dedupByHeight.mpr
              ⟨hm, by simp [List.mem_cons, he, hs], hk⟩)
    · rename_i hcond
      rw [mem_map_height_dedupByHeight]
      simp only [List.map_cons, List.mem_cons]
      constructor
      · rintro ⟨hm, hs, hk⟩
        exact ⟨Or.inr hm, hs, hk⟩
      · rintro ⟨rfl | hm, hs, hk⟩
        · exact absurd ⟨hs, hk⟩ hcond
        · exact ⟨hm, hs, hk⟩

/-- The heights surviving deduplication contain no duplicates. -/
theorem nodup_map_height_dedupByHeight {keep : Nat → Bool} :
    ∀ {l : List BlockRecord} {seen : List Nat},
      ((dedupByHeight keep l seen).map (fun b => b.height)).Nodup
  | [], _ => by simp [dedupByHeight]
  | a :: l, seen => by
    simp only [dedupByHeight]
    split
    · rename_i hcond
      simp only [List.map_cons, List.nodup_cons]
      refine ⟨fun hmem => ?_, nodup_map_height_dedupByHeight⟩
      have := (mem_map_height_dedupByHeight.mp hmem).2.1
      exact this (List.mem_cons_self _ _)
    · exact nodup_map_height_dedupByHeight

/-- After the stable sort by height, the height sequence is weakly
ascending. -/
theorem sorted_heights_sortByHeight (l : List BlockRecord) :
    ((sortByHeight l).map (fun b => b.height)).Sorted (· ≤ ·) := by
  have hs : (sortByHeight l).Sorted (fun a b => a.height ≤ b.height) :=
    List.sorted_insertionSort _ l
  exact (List.pairwise_map).mpr hs

/-- Sorting permutes the record list, so the height multiset is unchanged. -/
theorem perm_heights_sortByHeight (l : List BlockRecord) :
    ((sortByHeight l).map (fun b => b.height)).Perm (l.map (fun b => b.height)) :=
  (List.perm_insertionSort _ l).map _

/-- Dedup-then-sort yields a strictly ascending height sequence. -/
theorem pairwise_lt_heights (keep : Nat → Bool) (l : List BlockRecord) :
    ((sortByHeight (dedupByHeight keep l [])).map (fun b => b.height)).Pairwise (· < ·) := by
  have hnd : ((sortByHeight (dedupByHeight keep l [])).map (fun b => b.height)).Nodup :=
    (perm_heights_sortByHeight _).nodup_iff.mpr nodup_map_height_dedupByHeight
  have hle := sorted_heights_sortByHeight (dedupByHeight keep l [])
  exact (hle.and hnd).imp (fun h => lt_of_le_of_ne h.1 h.2)

/-- Membership in sort-of-dedup output is membership in the dedup output. -/
theorem mem_sortByHeight {l : List BlockRecord} {b : BlockRecord} :
    b ∈ sortByHeight l ↔ b ∈ l :=
  (List.perm_insertionSort _ l).mem_iff

/--
C1: for every input list of fetched page results, each collector's final
output list (dedup by height, then ascending sort — Celestia `collect.py`
lines 374-385, Espresso `collect.py` lines 401-409) has strictly ascending
heights (hence each height occurs at most once), keeps for each surviving
height the first-seen record of that height, preserves exactly the input's
height set (Celestia), and — independence from worker completion order —
permuting the concatenated page results leaves the output height sequence
unchanged.
-/
theorem collector_output_dedup_sorted (l : List BlockRecord) :
    (((celestiaCollectOutput l).map (fun b => b.height)).Pairwise (· < ·)) ∧
    (∀ b ∈ celestiaCollectOutput l, firstWithHeight l b.height = some b) ∧
    (∀ h, h ∈ (celestiaCollectOutput l).map (fun b => b.height) ↔
        h ∈ l.map (fun b => b.height)) ∧
    (∀ l₂ : List BlockRecord, l.Perm l₂ →
      (celestiaCollectOutput l).map (fun b => b.height) =
        (celestiaCollectOutput l₂).map (fun b => b.height)) ∧
    (∀ fetch_start tip : Nat,
      (((espressoCollectOutput fetch_start tip l).map (fun b => b.height)).Pairwise (· < ·)) ∧
      (∀ b ∈ espressoCollectOutput fetch_start tip l,
        firstWithHeight l b.height = some b)) := by
  refine ⟨pairwise_lt_heights _ l, ?_, ?_, ?_, ?_⟩
  · intro b hb
    exact (mem_dedupByHeight (mem_sortByHeight.mp hb)).2.2
  · intro h
    rw [celestiaCollectOutput, (perm_heights_sortByHeight _).mem_iff,
      mem_map_height_dedupByHeight]
    simp
  · intro l₂ hperm
    have mem_iff : ∀ h, h ∈ (celestiaCollectOutput l).map (fun b => b.height) ↔
        h ∈ (celestiaCollectOutput l₂).map (fun b => b.height) := by
      intro h
      rw [celestiaCollectOutput, celestiaCollectOutput,
        (perm_heights_sortByHeight _).mem_iff, (perm_heights_sortByHeight _).mem_iff,
        mem_map_height_dedupByHeight, mem_map_height_dedupByHeight,
        (hperm.map (fun b => b.height)).mem_iff]
    have hnd₁ : ((celestiaCollectOutput l).map (fun b => b.height)).Nodup :=
      (perm_heights_sortByHeight _).nodup_iff.mpr nodup_map_height_dedupByHeight
    have hnd₂ : ((celestiaCollectOutput l₂).map (fun b => b.height)).Nodup :=
      (perm_heights_sortByHeight _).nodup_iff.mpr nodup_map_height_dedupByHeight
    have hp : ((celestiaCollectOutput l).map (fun b => b.height)).Perm
        ((celestiaCollectOutput l₂).map (fun b => b.height)) :=
      (List.perm_ext_iff_of_nodup hnd₁ hnd₂).mpr mem_iff
    exact List.eq_of_perm_of_sorted hp
      (sorted_heights_sortByHeight _) (sorted_heights_sortByHeight _)
  · intro fetch_start tip
    refine ⟨pairwise_lt_heights _ l, ?_⟩
    intro b hb
    exact (mem_dedupByHeight (mem_sortByHeight.mp hb)).2.2

/-- Witness for C1 at a concrete input: the duplicate-height record
`⟨3, 0, 9⟩` loses to the first-seen `⟨3, 0, 7⟩`, and a permuted completion
order yields the same height sequence. -/
theorem collector_output_dedup_sorted_witness :
    firstWithHeight [⟨3, 0, 7⟩, ⟨1, 0, 5⟩, ⟨3, 0, 9⟩] 3 = some ⟨3, 0, 7⟩ ∧
    (celestiaCollectOutput [⟨3, 0, 7⟩, ⟨1, 0, 5⟩, ⟨3, 0, 9⟩]).map (fun b => b.height) =
      (celestiaCollectOutput [⟨1, 0, 5⟩, ⟨3, 0, 9⟩, ⟨3, 0, 7⟩]).map (fun b => b.height) :=
  ⟨(collector_output_dedup_sorted [⟨3, 0, 7⟩, ⟨1, 0, 5⟩, ⟨3, 0, 9⟩]).2.1
      ⟨3, 0, 7⟩ (by decide),
   (collector_output_dedup_sorted [⟨3, 0, 7⟩, ⟨1, 0, 5⟩, ⟨3, 0, 9⟩]).2.2.2.1
      [⟨1, 0, 5⟩, ⟨3, 0, 9⟩, ⟨3, 0, 7⟩] (by decide)⟩

/-! ### Page-range planner -/

/-- Espresso `main` step 4 (`collect.py` lines 353-360): the page planner
for the descending `from`/`limit` addressing.

    pages = []; offset = 0
    while fetch_start + offset <= tip:
        page_start = fetch_start + offset
        page_end = min(page_start + PAGE_SIZE - 1, tip)
        limit = page_end - page_start + 1
        pages.append((page_end, limit)); offset += PAGE_SIZE

The page size `P` (`PAGE_SIZE = 100` in the source) is kept as a parameter;
the positivity hypothesis `hP` is exactly the condition under which the
Python loop terminates. -/
def genPages (fetch_start tip P : Nat) (hP : 0 < P) (offset : Nat) : List (Nat × Nat) :=
  if h : fetch_start + offset ≤ tip then
    (min (fetch_start + offset + P - 1) tip,
     min (fetch_start + offset + P - 1) tip - (fetch_start + offset) + 1)
      :: genPages fetch_start tip P hP (offset + P)
  else []
termination_by tip + 1 - (fetch_start + offset)
decreasing_by omega

/-- The block heights a `(from, limit)` page descriptor denotes: the API
returns `limit` blocks descending from `from`, i.e. heights
`from - limit + 1 .. from` (Espresso `fetch_page`, `collect.py`
lines 172-190). -/
def pageHeights (p : Nat × Nat) : List Nat :=
  List.range' (p.1 + 1 - p.2) p.2

/-- The planner, started at `offset`, covers exactly the heights
`fetch_start + offset .. tip`, in ascending page order. -/
theorem genPages_cover (fetch_start tip P : Nat) (hP : 0 < P) :
    ∀ offset, (genPages fetch_start tip P hP offset).flatMap pageHeights =
      List.range' (fetch_start + offset) (tip + 1 - (fetch_start + offset)) := by
  intro offset
  generalize hm : tip + 1 - (fetch_start + offset) = m
  induction m using Nat.strong_induction_on generalizing offset with
  | _ m IH =>
    rw [genPages]
    split
    · rename_i hle
      have hm' : tip + 1 - (fetch_start + (offset + P)) < m := by omega
      rw [List.flatMap_cons, IH _ hm' (offset + P) rfl]
      have hmin : fetch_start + offset ≤ min (fetch_start + offset + P - 1) tip := by
        omega
      rw [pageHeights]
      have h1 : min (fetch_start + offset + P - 1) tip + 1 -
          (min (fetch_start + offset + P - 1) tip - (fetch_start + offset) + 1) =
          fetch_start + offset := by omega
      rw [h1]
      by_cases hfull : fetch_start + offset + P - 1 ≤ tip
      · have h2 : min (fetch_start + offset + P - 1) tip -
            (fetch_start + offset) + 1 = P := by omega
        have h3 : fetch_start + (offset + P) = fetch_start + offset + P := by omega
        rw [h2, h3]
        have := List.range'_append_1 (fetch_start + offset) P
          (tip + 1 - (fetch_start + offset + P))
        rw [this]
        congr 1
        omega
      · have h2 : min (fetch_start + offset + P - 1) tip -
            (fetch_start + offset) + 1 = tip + 1 - (fetch_start + offset) := by omega
        have h3 : tip + 1 - (fetch_start + (offset + P)) = 0 := by omega
        rw [h2, h3, List.range'_zero, List.append_nil, hm]
    · rename_i hgt
      have : m = 0 := by omega
      rw [this, List.range'_zero]
      rfl

/-- The planner emits the empty plan exactly when the range is empty. -/
theorem genPages_eq_nil_iff (fetch_start tip P : Nat) (hP : 0 < P) (offset : Nat) :
    genPages fetch_start tip P hP offset = [] ↔ tip < fetch_start + offset := by
  rw [genPages]
  split <;> rename_i h <;> simp <;> omega

/-- Every planned page has a positive limit of at most `P`. -/
theorem genPages_limit_le (fetch_start tip P : Nat) (hP : 0 < P) :
    ∀ offset, ∀ p ∈ genPages fetch_start tip P hP offset, 0 < p.2 ∧ p.2 ≤ P := by
  intro offset
  generalize hm : tip + 1 - (fetch_start + offset) = m
  induction m using Nat.strong_induction_on generalizing offset with
  | _ m IH =>
    rw [genPages]
    split
    · rename_i hle
      intro p hp
      rcases List.mem_cons.mp hp with rfl | htail
      · constructor <;> simp <;> omega
      · exact IH _ (by omega) (offset + P) rfl p htail
    · intro p hp
      simp at hp

/-- Every planned page except possibly the final one has limit exactly `P`. -/
theorem genPages_full_except_last (fetch_start tip P : Nat) (hP : 0 < P) :
    ∀ offset, ∀ p ∈ (genPages fetch_start tip P hP offset).dropLast, p.2 = P := by
  intro offset
  generalize hm : tip + 1 - (fetch_start + offset) = m
  induction m using Nat.strong_induction_on generalizing offset with
  | _ m IH =>
    rw [genPages]
    split
    · rename_i hle
      intro p hp
      rcases heq : genPages fetch_start tip P hP (offset + P) with _ | ⟨q, rest⟩
      · rw [heq, List.dropLast_single] at hp
        simp at hp
      · have hnext : fetch_start + (offset + P) ≤ tip := by
          by_contra hc
          rw [(genPages_eq_nil_iff fetch_start tip P hP (offset + P)).mpr (by omega)]
            at heq
          exact List.noConfusion heq
        rw [heq, List.dropLast_cons₂] at hp
        rcases List.mem_cons.mp hp with rfl | htail
        · simp only
          omega
        · exact IH _ (by omega) (offset + P) rfl p (heq ▸ htail)
    · intro p hp
      simp at hp

/--
C2: for every range `[fetch_start, tip]` with `fetch_start ≤ tip` and page
size `P > 0`, the Espresso page planner (`collect.py` lines 353-360)
produces an ordered sequence of descending-addressed page descriptors whose
denoted heights are exactly the ascending enumeration of
`fetch_start .. tip` (exact, non-overlapping, ordered coverage); every page
has limit at most `P` and all but the final page have limit exactly `P`;
and the height range `1000 .. 1099` with `P = 100` yields the single page
request `(from = 1099, limit = 100)`.
-/
theorem planner_exact_cover (fetch_start tip P : Nat) (hP : 0 < P)
    (hrange : fetch_start ≤ tip) :
    ((genPages fetch_start tip P hP 0).flatMap pageHeights =
      List.range' fetch_start (tip + 1 - fetch_start)) ∧
    (∀ p ∈ (genPages fetch_start tip P hP 0).dropLast, p.2 = P) ∧
    (∀ p ∈ genPages fetch_start tip P hP 0, 0 < p.2 ∧ p.2 ≤ P) ∧
    (genPages 1000 1099 100 (by decide) 0 = [(1099, 100)]) := by
  refine ⟨?_, genPages_full_except_last fetch_start tip P hP 0,
    genPages_limit_le fetch_start tip P hP 0, ?_⟩
  · have := genPages_cover fetch_start tip P hP 0
    simpa using this
  · rw [genPages]
    norm_num
    rw [genPages]
    norm_num

/-- Witness for C2 at the spec's example scenario: heights 1000..1099 with
page size 100. -/
theorem planner_exact_cover_witness :
    ((genPages 1000 1099 100 (by decide) 0).flatMap pageHeights =
      List.range' 1000 100) ∧
    (genPages 1000 1099 100 (by decide) 0 = [(1099, 100)]) := by
  have h := planner_exact_cover 1000 1099 100 (by decide) (by decide)
  exact ⟨h.1, h.2.2.2⟩

/-! ### Checkpoint resume -/

/-- The persisted checkpoint record (`collect.py` `save_checkpoint`,
lines 250-256): pages completed and the chain tip at save time
(`total_pages`/`saved_at` are irrelevant to the resume decision and
omitted). -/
structure Checkpoint where
  pages_done : Nat
  tip_height : Int
deriving DecidableEq, Repr

/-- Celestia `collect_blocks` resume check (`collect.py` lines 313-320):

    start_page = 0
    if resume:
        ckpt = load_checkpoint()
        if ckpt and abs(ckpt.get("tip_height", 0) - tip) < 2000:
            start_page = ckpt["pages_done"]

`ckpt` is `none` when the checkpoint file is absent or corrupt
(`load_checkpoint`, lines 259-265). -/
def resumeStartPage (resume : Bool) (ckpt : Option Checkpoint) (tip : Int) : Nat :=
  if resume then
    match ckpt with
    | some c => if (c.tip_height - tip).natAbs < 2000 then c.pages_done else 0
    | none => 0
  else 0

/-- Celestia `collect_blocks` page plan (`collect.py` line 332):
`offsets = [p * PAGE_SIZE for p in range(start_page, total_pages)]`, with
`PAGE_SIZE = 100`. -/
def celestiaOffsets (start_page total_pages : Nat) : List Nat :=
  (List.range' start_page (total_pages - start_page)).map (fun p => p * 100)

/--
C3: on a resumed run, a loaded checkpoint is honored (fetching starts at
page `pages_done`) exactly when `abs(currentTip - tipAtSave) < 2000`, and
is discarded (start page 0) otherwise; in particular a checkpoint with
`pages_done = 3` saved at tip 5000 and resumed at tip 5003 resumes from
page 3 — the first planned offset is then `3 * PAGE_SIZE`, not offset 0.
-/
theorem checkpoint_resume_rule (c : Checkpoint) (tip : Int) :
    ((c.tip_height - tip).natAbs < 2000 →
      resumeStartPage true (some c) tip = c.pages_done) ∧
    (2000 ≤ (c.tip_height - tip).natAbs →
      resumeStartPage true (some c) tip = 0) ∧
    (resumeStartPage true (some ⟨3, 5000⟩) 5003 = 3) ∧
    (∀ total_pages, 3 < total_pages →
      celestiaOffsets (resumeStartPage true (some ⟨3, 5000⟩) 5003) total_pages ≠
        celestiaOffsets 0 total_pages ∧
      (celestiaOffsets (resumeStartPage true (some ⟨3, 5000⟩) 5003) total_pages).head? =
        some 300) := by
  refine ⟨?_, ?_, by decide, ?_⟩
  · intro hlt
    simp [resumeStartPage, hlt]
  · intro hge
    simp [resumeStartPage, Nat.not_lt.mpr hge]
  · intro total_pages htp
    have h3 : resumeStartPage true (some ⟨3, 5000⟩) 5003 = 3 := by decide
    rw [h3]
    constructor
    · intro heq
      have h1 : (celestiaOffsets 3 total_pages).length = total_pages - 3 := by
        simp [celestiaOffsets]
      have h2 : (celestiaOffsets 0 total_pages).length = total_pages := by
        simp [celestiaOffsets]
      rw [heq, h2] at h1
      omega
    · have hpos : total_pages - 3 = (total_pages - 4) + 1 := by omega
      simp [celestiaOffsets, hpos, List.range'_succ]

/-- Witness for C3: the spec's example scenario (checkpoint at tip 5000 with
3 pages done, current tip 5003) is honored, and a tip shift of 2000 is not. -/
theorem checkpoint_resume_rule_witness :
    resumeStartPage true (some ⟨3, 5000⟩) 5003 = 3 ∧
    resumeStartPage true (some ⟨3, 5000⟩) 7000 = 0 ∧
    (celestiaOffsets (resumeStartPage true (some ⟨3, 5000⟩) 5003) 13).head? = some 300 :=
  ⟨(checkpoint_resume_rule ⟨3, 5000⟩ 5003).1 (by decide),
   (checkpoint_resume_rule ⟨3, 5000⟩ 7000).2.1 (by decide),
   ((checkpoint_resume_rule ⟨3, 5000⟩ 5003).2.2.2 13 (by decide)).2⟩

/-! ### Fetch-with-retry -/

/-- Outcome of one HTTP attempt, abstracting the network: the server
answers 429, the request raises a `requests.RequestException` (connection
error, timeout, or a non-2xx status via `raise_for_status`), or a response
parses successfully. -/
inductive AttemptResult where
  | parsedOk (v : Nat)
  | status429
  | requestError
deriving DecidableEq, Repr

/-- How a call to `api_get` terminates: with a parsed response, by raising
`RuntimeError` after exhausting retries, or — falling off the end of the
`for attempt in range(retries)` loop — by Python's implicit `return None`. -/
inductive FetchOutcome where
  | parsed (v : Nat)
  | raisedError
  | noneReturn
deriving DecidableEq, Repr

/-- Celestia `api_get` (`collect.py` lines 141-156), one loop iteration per
`fuel` step, also recording the argument of each `time.sleep` call:

    for attempt in range(retries):
        try:
            resp = requests.get(...)
            if resp.status_code == 429:
                wait = 2 ** (attempt + 1); time.sleep(wait); continue
            resp.raise_for_status()
            return resp.json()
        except requests.RequestException as e:
            if attempt < retries - 1: time.sleep(1.0 * (attempt + 1))
            else: raise RuntimeError(...)

`responses attempt` is the result of the network attempt; `fuel` counts the
loop iterations still to run, so the call site uses `fuel = retries`. -/
def celestiaApiGetGo (responses : Nat → AttemptResult) (retries : Nat) :
    Nat → Nat → FetchOutcome × List ℚ
  | _, 0 => (.noneReturn, [])
  | attempt, fuel + 1 =>
    match responses attempt with
    | .parsedOk v => (.parsed v, [])
    | .status429 =>
      let r := celestiaApiGetGo responses retries (attempt + 1) fuel
      (r.1, (2 : ℚ) ^ (attempt + 1) :: r.2)
    | .requestError =>
      if attempt < retries - 1 then
        let r := celestiaApiGetGo responses retries (attempt + 1) fuel
        (r.1, (1 : ℚ) * (attempt + 1) :: r.2)
      else (.raisedError, [])

/-- Celestia `api_get` with its `MAX_RETRIES = 3` default
(`collect.py` line 48): outcome plus the sequence of sleeps performed. -/
def celestia_api_get (responses : Nat → AttemptResult) (retries : Nat := 3) :
    FetchOutcome × List ℚ :=
  celestiaApiGetGo responses retries 0 retries

/-- Espresso `collect.py` `RETRY_DELAY_S = 1.0` (line 39). -/
def RETRY_DELAY_S : ℚ := 1

/-- Espresso `api_get` (`collect.py` lines 87-111): same loop shape, but
both the 429 branch and the request-error branch wait
`RETRY_DELAY_S * (2 ** attempt)`. -/
def espressoApiGetGo (responses : Nat → AttemptResult) (retries : Nat) :
    Nat → Nat → FetchOutcome × List ℚ
  | _, 0 => (.noneReturn, [])
  | attempt, fuel + 1 =>
    match responses attempt with
    | .parsedOk v => (.parsed v, [])
    | .status429 =>
      let r := espressoApiGetGo responses retries (attempt + 1) fuel
      (r.1, RETRY_DELAY_S * (2 : ℚ) ^ attempt :: r.2)
    | .requestError =>
      if attempt < retries - 1 then
        let r := espressoApiGetGo responses retries (attempt + 1) fuel
        (r.1, RETRY_DELAY_S * (2 : ℚ) ^ attempt :: r.2)
      else (.raisedError, [])

/-- Espresso `api_get` with its `MAX_RETRIES = 5` default
(`collect.py` line 38). -/
def espresso_api_get (responses : Nat → AttemptResult) (retries : Nat := 5) :
    FetchOutcome × List ℚ :=
  espressoApiGetGo responses retries 0 retries

/--
C4 (the code at the claim's failing input): when every attempt is answered
with HTTP 429, Celestia's `api_get` (with its `MAX_RETRIES = 3` budget)
performs the three exponential backoff sleeps `2, 4, 8` seconds, exhausts
the loop via `continue`, and then falls off the end of the function —
returning Python's implicit `None` instead of raising a terminal error, so
the call returns normally without a parsed response.  Espresso's `api_get`
(budget 5) behaves the same way.  This contradicts the claimed contract
"returns a parsed response or fails with a terminal error".
-/
theorem api_get_all_429_returns_none :
    celestia_api_get (fun _ => .status429) 3 = (.noneReturn, [2, 4, 8]) ∧
    espresso_api_get (fun _ => .status429) 5 = (.noneReturn, [1, 2, 4, 8, 16]) := by
  constructor
  · show celestiaApiGetGo _ 3 0 3 = _
    norm_num [celestiaApiGetGo]
  · show espressoApiGetGo _ 5 0 5 = _
    norm_num [espressoApiGetGo, RETRY_DELAY_S]

/--
C6 (amended): on a transient request error at an attempt that is not the
last one, Celestia's `api_get` sleeps `1.0 * (attempt + 1)` seconds —
linear in the attempt number — before retrying, while Espresso's `api_get`
sleeps `RETRY_DELAY_S * 2 ^ attempt`, the same exponential schedule it
uses for HTTP 429 responses.
-/
theorem net_error_backoff_schedules (responses : Nat → AttemptResult)
    (retries attempt fuel : Nat)
    (herr : responses attempt = .requestError)
    (hlast : attempt < retries - 1) :
    (celestiaApiGetGo responses retries attempt (fuel + 1)).2.head? =
      some ((1 : ℚ) * (attempt + 1)) ∧
    (espressoApiGetGo responses retries attempt (fuel + 1)).2.head? =
      some (RETRY_DELAY_S * (2 : ℚ) ^ attempt) := by
  constructor
  · simp [celestiaApiGetGo, herr, hlast]
  · simp [espressoApiGetGo, herr, hlast]

/-- Witness for C6's amended statement: at attempt 2 of an all-errors run
with a budget of 5, Celestia waits 3 seconds, Espresso waits 4. -/
theorem net_error_backoff_schedules_witness :
    (celestiaApiGetGo (fun _ => .requestError) 5 2 3).2.head? = some 3 ∧
    (espressoApiGetGo (fun _ => .requestError) 5 2 3).2.head? = some 4 := by
  have h := net_error_backoff_schedules (fun _ => .requestError) 5 2 2 rfl (by decide)
  constructor
  · rw [h.1]
    norm_num
  · rw [h.2]
    norm_num [RETRY_DELAY_S]

/--
C6 (counterexample to the claim as stated): in the Espresso collector, the
transient-error wait at attempt 2 — not the last attempt, since
`2 < MAX_RETRIES - 1 = 4` — is `RETRY_DELAY_S * 2 ^ 2 = 4` seconds, which
differs from the claimed linear schedule `base * (attempt + 1) = 3`; the
full wait trace of an all-errors run is the exponential `[1, 2, 4, 8]`,
not `[1, 2, 3, 4]`.
-/
theorem espresso_net_backoff_not_linear :
    espresso_api_get (fun _ => .requestError) 5 = (.raisedError, [1, 2, 4, 8]) ∧
    (espresso_api_get (fun _ => .requestError) 5).2.get? 2 = some 4 ∧
    (4 : ℚ) ≠ RETRY_DELAY_S * (2 + 1) := by
  refine ⟨?_, ?_, by norm_num [RETRY_DELAY_S]⟩
  · show espressoApiGetGo _ 5 0 5 = _
    norm_num [espressoApiGetGo, RETRY_DELAY_S]
  · show (espressoApiGetGo _ 5 0 5).2.get? 2 = _
    norm_num [espressoApiGetGo, RETRY_DELAY_S]

/-! ### The concurrent fetch loops -/

/-- The result of one page's fetch as the orchestrator sees it: either the
page's parsed blocks, or the terminal exception message raised after the
retry budget was exhausted.  A list of these, in the order the orchestrator
consumes the futures, models a run of the worker pool. -/
abbrev PageResult := Except String (List BlockRecord)

/-- Celestia `collect_blocks` fetch loop (`collect.py` lines 340-365):

    for i, page_blocks in enumerate(pool.map(_fetch, offsets)):
        ...
        all_blocks.extend(page_blocks)

There is no `try`/`except` around the iteration: when the iterator reaches
a failed future, `pool.map` re-raises that page's exception, which
propagates out of `collect_blocks` — the run aborts and no result list is
returned.  Modelled as `Except`: the first failed page aborts the whole
consumption. -/
def celestiaFetchLoop : List PageResult → Except String (List BlockRecord)
  | [] => .ok []
  | .error e :: _ => .error e
  | .ok bs :: rest =>
    match celestiaFetchLoop rest with
    | .ok acc => .ok (bs ++ acc)
    | .error e => .error e

/-- Espresso `main` fetch loop (`collect.py` lines 377-390):

    for fut in as_completed(future_to_page):
        try:
            blocks = fut.result(); all_blocks.extend(blocks); ...
        except Exception as e:
            errors += 1; log.error(...)

Every page failure is caught, counted and skipped.  Returns the collected
blocks and the error count. -/
def espressoFetchLoop (results : List PageResult) : List BlockRecord × Nat :=
  results.foldl
    (fun acc r =>
      match r with
      | .ok bs => (acc.1 ++ bs, acc.2)
      | .error _ => (acc.1, acc.2 + 1))
    ([], 0)

/-- The concatenation of all successful pages' blocks, in consumption
order. -/
def okJoin (results : List PageResult) : List BlockRecord :=
  (results.filterMap (fun r => r.toOption)).flatten

/-- The number of failed pages. -/
def errCount (results : List PageResult) : Nat :=
  (results.filter (fun r => !r.toOption.isSome)).length

theorem espressoFetchLoop_go (results : List PageResult) :
    ∀ acc : List BlockRecord × Nat,
      results.foldl
        (fun acc r =>
          match r with
          | .ok bs => (acc.1 ++ bs, acc.2)
          | .error _ => (acc.1, acc.2 + 1))
        acc = (acc.1 ++ okJoin results, acc.2 + errCount results) := by
  induction results with
  | nil => intro acc; simp [okJoin, errCount]
  | cons r rest ih =>
    intro acc
    cases r with
    | ok bs =>
      simp only [List.foldl_cons, ih]
      simp [okJoin, errCount, Except.toOption, List.append_assoc]
    | error e =>
      simp only [List.foldl_cons, ih]
      simp only [okJoin, errCount, Except.toOption, List.filterMap_cons, List.filter_cons]
      norm_num
      omega

/--
C5 (amended): for every sequence of page results, the Espresso fetch loop
catches each page's terminal failure, counts it, and still collects every
non-failing page's blocks; the Celestia fetch loop, by contrast, only
returns a result list when no page failed — any page failure re-raises out
of the `pool.map` iteration and aborts the collection.
-/
theorem fetch_loop_error_handling (results : List PageResult) :
    (espressoFetchLoop results = (okJoin results, errCount results)) ∧
    (errCount results = 0 → celestiaFetchLoop results = .ok (okJoin results)) ∧
    (0 < errCount results → ∃ e, celestiaFetchLoop results = .error e) := by
  refine ⟨?_, ?_, ?_⟩
  · show List.foldl _ _ _ = _
    rw [espressoFetchLoop_go results ([], 0)]
    simp
  · intro h0
    induction results with
    | nil => simp [celestiaFetchLoop, okJoin]
    | cons r rest ih =>
      cases r with
      | ok bs =>
        have : errCount rest = 0 := by
          simpa [errCount, Except.toOption] using h0
        rw [celestiaFetchLoop, ih this]
        simp [okJoin, Except.toOption]
      | error e =>
        exfalso
        simp [errCount, Except.toOption] at h0
  · intro hpos
    induction results with
    | nil => simp [errCount] at hpos
    | cons r rest ih =>
      cases r with
      | ok bs =>
        have : 0 < errCount rest := by
          simpa [errCount, Except.toOption] using hpos
        obtain ⟨e, he⟩ := ih this
        exact ⟨e, by rw [celestiaFetchLoop, he]⟩
      | error e => exact ⟨e, rfl⟩

/-- Witness for C5's amended statement at a concrete run: pages
`[ok [h1], error, ok [h2]]`. -/
theorem fetch_loop_error_handling_witness :
    espressoFetchLoop [.ok [⟨1, 0, 0⟩], .error "boom", .ok [⟨2, 0, 0⟩]] =
      ([⟨1, 0, 0⟩, ⟨2, 0, 0⟩], 1) ∧
    (∃ e, celestiaFetchLoop [.ok [⟨1, 0, 0⟩], .error "boom", .ok [⟨2, 0, 0⟩]] =
      .error e) := by
  have h := fetch_loop_error_handling [.ok [⟨1, 0, 0⟩], .error "boom", .ok [⟨2, 0, 0⟩]]
  refine ⟨?_, h.2.2 (by decide)⟩
  rw [h.1]
  decide

/--
C5 (counterexample to the claim as stated): in the Celestia collector's
fetch loop, a run whose second page fails terminally aborts with that
page's exception; the non-failing third page's block (height 2) is never
collected, contradicting "the orchestrator still collects the results of
all non-failing pages rather than letting the exception abort the whole
collection".
-/
theorem celestia_fetch_loop_aborts_on_page_failure :
    celestiaFetchLoop [.ok [⟨1, 0, 0⟩], .error "boom", .ok [⟨2, 0, 0⟩]] =
      .error "boom" := by
  rfl

/-! ### Empty-result handling after collection -/

/-- What a run does after the collection phase, at the granularity the
claim needs: the process exit code and the day files written (`none` when
the writer is never reached). -/
structure PostCollect where
  exitCode : Nat
  written : Option Nat
deriving DecidableEq, Repr

/-- Celestia `main` (`collect.py` lines 646-654):

    blocks = collect_blocks(...)
    if not blocks:
        print("No blocks collected.", file=sys.stderr); sys.exit(1)
    n_files = write_daily_csvs(blocks)

`nFiles` abstracts `write_daily_csvs blocks` (the day-file count). -/
def celestiaPostCollect (blocks : List BlockRecord) (nFiles : Nat) : PostCollect :=
  if blocks.isEmpty then ⟨1, none⟩ else ⟨0, some nFiles⟩

/-- Espresso `main` (`collect.py` lines 397-399 and 422-424):

    if not all_blocks:
        log.error("No blocks fetched — aborting.")
        return
    ... files_written = write_day_files(all_blocks, log)

The empty case is a plain `return` from `main`: the process exits with
code 0. -/
def espressoPostFetch (blocks : List BlockRecord) (nFiles : Nat) : PostCollect :=
  if blocks.isEmpty then ⟨0, none⟩ else ⟨0, some nFiles⟩

/--
C7 (amended): in the Celestia collector an empty collected set exits the
process with code 1 and persists nothing, and a non-empty set never exits
non-zero for this reason; in the Espresso collector an empty set also
persists nothing but `main` merely returns, so the process exits 0.
-/
theorem empty_result_exit_codes (blocks : List BlockRecord) (nFiles : Nat) :
    ((celestiaPostCollect blocks nFiles).exitCode = 1 ↔ blocks = []) ∧
    ((celestiaPostCollect blocks nFiles).written = none ↔ blocks = []) ∧
    ((espressoPostFetch blocks nFiles).exitCode = 0) ∧
    ((espressoPostFetch blocks nFiles).written = none ↔ blocks = []) := by
  refine ⟨?_, ?_, ?_, ?_⟩ <;>
    rcases blocks with _ | ⟨b, rest⟩ <;>
      simp [celestiaPostCollect, espressoPostFetch]

/--
C7 (counterexample to the claim as stated): an Espresso run whose
collection phase completes with an empty result set exits with code 0, not
a non-zero code.
-/
theorem espresso_empty_result_exits_zero :
    (espressoPostFetch [] 0).exitCode = 0 ∧ (0 : Nat) ≠ 1 := by
  exact ⟨rfl, by decide⟩

/-! ### Day-partitioned writer -/

/-- Espresso `ts_to_date` (`collect.py` lines 227-229): the UTC calendar
day of an epoch-milliseconds timestamp.  The `YYYY-MM-DD` string is in
bijection with the number of whole days since the epoch for the
non-negative timestamps the chain produces, so the day is modelled as that
number.  (Celestia derives the same partition key at parse time:
`parse_iso_ts`, `collect.py` lines 177-188, returns the UTC date of the
block timestamp into the `_date` field used by `write_daily_csvs`.) -/
def ts_to_date (ts_ms : Nat) : Nat :=
  ts_ms / 1000 / 86400

/-- The distinct day keys of a batch, in ascending order — Python's
`sorted(by_date.items())` iterates the group keys in sorted order
(Espresso `collect.py` line 245, Celestia line 451). -/
def batchDays (blocks : List BlockRecord) : List Nat :=
  List.insertionSort (· ≤ ·) ((blocks.map (fun b => ts_to_date b.timestamp_ms)).dedup)

/-- Espresso `write_day_files` (`collect.py` lines 232-271) /
Celestia `write_daily_csvs` (lines 444-459): group the batch by UTC day
(`defaultdict(list)` keeps each day's records in batch order, so day `d`'s
group is `blocks.filter (day = d)`), then for each day in sorted key order
write that day's records sorted ascending by height to `{d}.csv`.
Returns the per-day rows written. -/
def write_day_files (blocks : List BlockRecord) : List (Nat × List BlockRecord) :=
  (batchDays blocks).map
    (fun d => (d, sortByHeight (blocks.filter (fun b => ts_to_date b.timestamp_ms == d))))

theorem sum_map_add (ds : List Nat) (f g : Nat → Nat) :
    (ds.map (fun d => f d + g d)).sum = (ds.map f).sum + (ds.map g).sum := by
  induction ds with
  | nil => simp
  | cons d ds ih => simp [ih]; omega

theorem sum_map_indicator_eq_zero {ds : List Nat} {x : Nat} (hx : x ∉ ds) :
    (ds.map (fun d => if x = d then 1 else 0)).sum = 0 := by
  induction ds with
  | nil => simp
  | cons d ds ih =>
    have hne : x ≠ d := fun he => hx (he ▸ List.mem_cons_self _ _)
    have htail : x ∉ ds := fun hc => hx (List.mem_cons_of_mem _ hc)
    simp [hne, ih htail]

theorem sum_map_indicator_eq_one {ds : List Nat} {x : Nat} (hnd : ds.Nodup)
    (hx : x ∈ ds) : (ds.map (fun d => if x = d then 1 else 0)).sum = 1 := by
  induction ds with
  | nil => simp at hx
  | cons d ds ih =>
    rcases List.mem_cons.mp hx with rfl | htail
    · have : x ∉ ds := (List.nodup_cons.mp hnd).1
      simp [sum_map_indicator_eq_zero this]
    · have hne : x ≠ d := by
        rintro rfl
        exact (List.nodup_cons.mp hnd).1 htail
      simp [hne, ih (List.nodup_cons.mp hnd).2 htail]

/-- A batch's length is recovered by summing, over any duplicate-free list
of days covering the batch, the sizes of the per-day groups. -/
theorem length_eq_sum_day_filter_lengths (l : List BlockRecord) :
    ∀ ds : List Nat, ds.Nodup → (∀ b ∈ l, ts_to_date b.timestamp_ms ∈ ds) →
      (ds.map (fun d =>
        (l.filter (fun b => ts_to_date b.timestamp_ms == d)).length)).sum = l.length := by
  induction l with
  | nil => intro ds _ _; simp
  | cons b rest ih =>
    intro ds hnd hcov
    have hsplit : ∀ d : Nat,
        ((b :: rest).filter (fun x => ts_to_date x.timestamp_ms == d)).length =
          (if ts_to_date b.timestamp_ms = d then 1 else 0) +
            (rest.filter (fun x => ts_to_date x.timestamp_ms == d)).length := by
      intro d
      rw [List.filter_cons]
      by_cases hd : ts_to_date b.timestamp_ms = d
      · simp [hd]
        omega
      · simp [hd]
    have hmapeq : (ds.map (fun d =>
        ((b :: rest).filter (fun x => ts_to_date x.timestamp_ms == d)).length)) =
        ds.map (fun d => (if ts_to_date b.timestamp_ms = d then 1 else 0) +
          (rest.filter (fun x => ts_to_date x.timestamp_ms == d)).length) :=
      List.map_congr_left (fun d _ => hsplit d)
    rw [hmapeq, sum_map_add,
      sum_map_indicator_eq_one hnd (hcov b (List.mem_cons_self _ _)),
      ih ds hnd (fun x hx => hcov x (List.mem_cons_of_mem _ hx))]
    simp [Nat.add_comm]

/--
C8: for every batch of records and every UTC day `D`, the rows the
day-partitioned writer puts into `{D}.csv` are exactly (as a multiset) the
batch records whose timestamp falls on day `D` — days absent from the
written files hold no batch records — and the per-day row counts across
all written day files sum to the batch size.
-/
theorem writer_day_partition (blocks : List BlockRecord) :
    (∀ p ∈ write_day_files blocks,
      p.2.Perm (blocks.filter (fun b => ts_to_date b.timestamp_ms == p.1))) ∧
    (∀ D : Nat, D ∉ (write_day_files blocks).map Prod.fst →
      blocks.filter (fun b => ts_to_date b.timestamp_ms == D) = []) ∧
    ((write_day_files blocks).map (fun p => p.2.length)).sum = blocks.length := by
  refine ⟨?_, ?_, ?_⟩
  · intro p hp
    obtain ⟨d, _, rfl⟩ := List.mem_map.mp hp
    exact List.perm_insertionSort _ _
  · intro D hD
    have hfst : (write_day_files blocks).map Prod.fst = batchDays blocks := by
      rw [write_day_files, List.map_map]
      exact List.map_id _
    have hD' : D ∉ batchDays blocks := by
      rw [← hfst]
      exact hD
    rw [List.filter_eq_nil_iff]
    intro b hb hbeq
    apply hD'
    have : ts_to_date b.timestamp_ms = D := by
      simpa using hbeq
    rw [batchDays, ← this]
    have hmem : ts_to_date b.timestamp_ms ∈
        (blocks.map (fun x => ts_to_date x.timestamp_ms)).dedup :=
      List.mem_dedup.mpr (List.mem_map.mpr ⟨b, hb, rfl⟩)
    exact (List.perm_insertionSort _ _).mem_iff.mpr hmem
  · have hlen : ∀ p ∈ write_day_files blocks,
        p.2.length = (blocks.filter (fun b => ts_to_date b.timestamp_ms == p.1)).length := by
      intro p hp
      obtain ⟨d, _, rfl⟩ := List.mem_map.mp hp
      exact (List.perm_insertionSort _ _).length_eq
    have hmapeq : (write_day_files blocks).map (fun p => p.2.length) =
        (batchDays blocks).map (fun d =>
          (blocks.filter (fun b => ts_to_date b.timestamp_ms == d)).length) := by
      rw [write_day_files, List.map_map]
      exact List.map_congr_left (fun d _ => (List.perm_insertionSort _ _).length_eq)
    rw [hmapeq]
    apply length_eq_sum_day_filter_lengths
    · rw [batchDays]
      exact (List.perm_insertionSort _ _).nodup_iff.mpr (List.nodup_dedup _)
    · intro b hb
      rw [batchDays]
      exact (List.perm_insertionSort _ _).mem_iff.mpr
        (List.mem_dedup.mpr (List.mem_map.mpr ⟨b, hb, rfl⟩))

/-- Witness for C8 at a concrete two-day batch: heights 1 and 3 fall on
day 0, height 2 on day 1 (timestamp 86 400 000 ms), and 2 + 1 rows = 3
records. -/
theorem writer_day_partition_witness :
    (⟨0, [⟨1, 0, 5⟩, ⟨3, 1000, 6⟩]⟩ : Nat × List BlockRecord) ∈
        write_day_files [⟨3, 1000, 6⟩, ⟨2, 86400000, 7⟩, ⟨1, 0, 5⟩] ∧
    ([⟨1, 0, 5⟩, ⟨3, 1000, 6⟩] : List BlockRecord).Perm
      ([⟨3, 1000, 6⟩, ⟨2, 86400000, 7⟩, ⟨1, 0, 5⟩].filter
        (fun b => ts_to_date b.timestamp_ms == 0)) ∧
    ((write_day_files [⟨3, 1000, 6⟩, ⟨2, 86400000, 7⟩, ⟨1, 0, 5⟩]).map
      (fun p => p.2.length)).sum = 3 := by
  refine ⟨by decide, ?_, ?_⟩
  · exact (writer_day_partition [⟨3, 1000, 6⟩, ⟨2, 86400000, 7⟩, ⟨1, 0, 5⟩]).1
      ⟨0, [⟨1, 0, 5⟩, ⟨3, 1000, 6⟩]⟩ (by decide)
  · exact (writer_day_partition [⟨3, 1000, 6⟩, ⟨2, 86400000, 7⟩, ⟨1, 0, 5⟩]).2.2

/-! ### Rate limiter

Celestia `RateLimiter` (`collect.py` lines 119-133).  `acquire` runs under
`self._lock`, so concurrent calls serialize; a run of the limiter is the
serialized sequence of critical sections.  Each critical section reads the
monotonic clock (`now`), sleeps `wait = min_interval - (now - _last)` if
positive, and stores a fresh clock reading as the new `_last` — the grant
time.  `time.sleep(w)` suspends for at least `w` seconds and the second
clock read happens after the sleep, so the grant time is
`now + max wait 0 + slack` for some `slack ≥ 0`; real time is modelled by
`ℚ` and the clock's monotonicity by the hypotheses of the theorems. -/

structure RateLimiter where
  min_interval : ℚ

/-- `RateLimiter.__init__` (`collect.py` lines 122-125):
`self.min_interval = 1.0 / rps`. -/
def RateLimiter.init (rps : ℚ) : RateLimiter :=
  ⟨1 / rps⟩

/-- The sleep duration `acquire` computes from the stored `_last` and the
current clock reading (`collect.py` line 130). -/
def RateLimiter.waitFor (rl : RateLimiter) (last now : ℚ) : ℚ :=
  rl.min_interval - (now - last)

/-- One serialized `acquire` critical section (`collect.py` lines 127-133):
the new `_last` (the grant time) is the clock reading taken after the
conditional sleep; `slack ≥ 0` is the sleep overshoot plus the time between
waking and the second clock read. -/
def RateLimiter.acquire (rl : RateLimiter) (last now slack : ℚ) : ℚ :=
  (if 0 < rl.waitFor last now then now + rl.waitFor last now else now) + slack

/-- A serialized run: each element of `events` is one `acquire` call's pair
of a clock reading and a nonnegative slack; the output is the sequence of
grant times. -/
def RateLimiter.grantTimes (rl : RateLimiter) (last : ℚ) :
    List (ℚ × ℚ) → List ℚ
  | [] => []
  | (now, slack) :: rest =>
    let g := rl.acquire last now slack
    g :: rl.grantTimes g rest

/-- Physical well-formedness of a serialized run: every sleep overshoot is
nonnegative and the monotonic clock never reads earlier than the previous
grant's second clock read. -/
def RateLimiter.validRun (rl : RateLimiter) (last : ℚ) : List (ℚ × ℚ) → Prop
  | [] => True
  | (now, slack) :: rest =>
    last ≤ now ∧ 0 ≤ slack ∧ rl.validRun (rl.acquire last now slack) rest

/-- One `acquire` grants at least `min_interval` after the previous grant. -/
theorem RateLimiter.acquire_gap (rl : RateLimiter) (last now slack : ℚ)
    (hmono : last ≤ now) (hslack : 0 ≤ slack) :
    rl.min_interval ≤ rl.acquire last now slack - last := by
  rw [RateLimiter.acquire, RateLimiter.waitFor]
  by_cases hw : 0 < rl.min_interval - (now - last)
  · rw [if_pos hw]
    linarith
  · rw [if_neg hw]
    push_neg at hw
    linarith

/--
C9: for every serialized sequence of concurrent `acquire()` calls (the
internal lock makes the critical sections mutually exclusive, so any
concurrent execution is one such sequence), every two consecutive grants —
including the first grant against the initial `_last` state — are separated
by at least `min_interval = 1/rps` seconds, given only that sleeps last at
least their argument and the monotonic clock never goes backwards.
-/
theorem rate_limiter_grant_gaps (rps : ℚ) (last : ℚ) (events : List (ℚ × ℚ))
    (hvalid : (RateLimiter.init rps).validRun last events) :
    List.Chain (fun a b => (RateLimiter.init rps).min_interval ≤ b - a) last
      ((RateLimiter.init rps).grantTimes last events) := by
  induction events generalizing last with
  | nil => exact List.Chain.nil
  | cons ev rest ih =>
    obtain ⟨now, slack⟩ := ev
    obtain ⟨hmono, hslack, hrest⟩ := hvalid
    exact List.Chain.cons
      (RateLimiter.acquire_gap _ last now slack hmono hslack) (ih _ hrest)

/-- Witness for C9: a burst of three calls against `RateLimiter(2.0)`
(`min_interval = 1/2`): grants at 1/2, 1 and 2, each at least 1/2 apart. -/
theorem rate_limiter_grant_gaps_witness :
    (RateLimiter.init 2).validRun 0 [(0, 0), (1/2, 0), (2, 0)] ∧
    List.Chain (fun a b => (RateLimiter.init 2).min_interval ≤ b - a) 0
      ((RateLimiter.init 2).grantTimes 0 [(0, 0), (1/2, 0), (2, 0)]) := by
  have hvalid : (RateLimiter.init 2).validRun 0 [(0, 0), (1/2, 0), (2, 0)] := by
    simp only [RateLimiter.validRun, RateLimiter.acquire, RateLimiter.waitFor,
      RateLimiter.init]
    norm_num
  exact ⟨hvalid, rate_limiter_grant_gaps 2 0 [(0, 0), (1/2, 0), (2, 0)] hvalid⟩

/--
C10: the Espresso deduplication step (`collect.py` line 405) also drops
every fetched record whose height lies outside `[fetch_start, tip]`: every
record of the final output satisfies `fetch_start ≤ height ≤ tip`, and a
response containing only out-of-range heights contributes nothing — e.g.
heights 25 and 9 vanish from a run with `fetch_start = 10`, `tip = 20`.
-/
theorem espresso_dedup_range_restriction :
    (∀ fetch_start tip : Nat, ∀ l : List BlockRecord,
      ∀ b ∈ espressoCollectOutput fetch_start tip l,
        fetch_start ≤ b.height ∧ b.height ≤ tip) ∧
    espressoCollectOutput 10 20 [⟨25, 0, 0⟩, ⟨9, 0, 0⟩] = [] := by
  constructor
  · intro fetch_start tip l b hb
    have hkeep := (mem_dedupByHeight (mem_sortByHeight.mp hb)).2.1
    simpa [decide_eq_true_eq] using hkeep
  · decide

/-- Witness for C10: an in-range record (height 15) survives and satisfies
the bounds. -/
theorem espresso_dedup_range_restriction_witness :
    10 ≤ (15 : Nat) ∧ (15 : Nat) ≤ 20 :=
  have hb : (⟨15, 0, 0⟩ : BlockRecord) ∈
      espressoCollectOutput 10 20 [⟨25, 0, 0⟩, ⟨15, 0, 0⟩] := by decide
  espresso_dedup_range_restriction.1 10 20 [⟨25, 0, 0⟩, ⟨15, 0, 0⟩] ⟨15, 0, 0⟩ hb

end ScoreDA
